import Mathlib

/-!
# Verification of the dozer dataflow core against its specification

Shallow embedding of the parts of the `supergi0/dozer` repository that the
frozen claims refer to:

* `dozer-storage/src/rocksdb_map.rs` — the `RocksdbMap` key-value wrapper
  over RocksDB (`get`, `contains`, `insert`, `remove`, `count`), embedded
  over an explicit association-list model of the byte store and an explicit
  model of the two-phase encode/decode contract of the `BorrowEncode` /
  `LmdbVal` traits.
* `dozer-core/src/dag/tests/dag_base_run.rs` — the `NoopProcessor` /
  `NoopJoinProcessor` test processors and their factories, embedded
  directly from the source.
* The `Dag` graph model, executor drain behaviour and consistency
  classifier, whose code is not part of the sources at hand; those are
  modelled from the specification (each such definition's doc comment
  says so and names the missing piece).
-/

namespace Dozer

/-- Encoded byte sequences (Rust `Vec<u8>` / `&[u8]`), as lists of bytes. -/
abbrev Bytes := List Nat

/-- Modelled from the spec: `crate::errors::StorageError` (its definition is
not among the sources); an opaque build/runtime storage error token, only
constructor identity matters to the claims. -/
inductive StorageError where
  | serializationError
  | deserializationError
  | internalDbError
deriving DecidableEq

/-- The underlying RocksDB store, modelled as an association list from encoded
byte keys to encoded byte values; the most recent write for a key comes first. -/
abbrev DbState := List (Bytes × Bytes)

/-- `DB::get_pinned`: the value currently associated with an encoded key. -/
def dbGet : DbState → Bytes → Option Bytes
  | [], _ => none
  | p :: rest, k => if p.1 = k then some p.2 else dbGet rest k

/-- `DB::put`: associate an encoded key with an encoded value. -/
def dbPut (db : DbState) (k v : Bytes) : DbState :=
  (k, v) :: db

/-- `DB::delete`: drop every association for an encoded key. -/
def dbDelete : DbState → Bytes → DbState
  | [], _ => []
  | p :: rest, k => if p.1 = k then dbDelete rest k else p :: dbDelete rest k

/-- The encode/decode contract used by `RocksdbMap<K, V>`: `K: BorrowEncode`
gives fallible key encoding, `V: LmdbVal` gives fallible value encoding, a
fallible decode into a borrowed value `V::Borrowed` (here `VB`), and the total
`IntoOwned` conversion from the borrowed value to an owned `V`.  The traits
live in `dozer-types`/`dozer-storage` outside the sources at hand, so the
contract is carried as explicit function fields. -/
structure LmdbValModel (K V VB : Type) where
  keyEncode : K → Except StorageError Bytes
  valEncode : V → Except StorageError Bytes
  valDecode : Bytes → Except StorageError VB
  intoOwned : VB → V

namespace RocksdbMap

/-- `RocksdbMap::get`: encode the key, read the pinned bytes, decode them into
a borrowed value and convert it to an owned one; absent key gives `Ok(None)`. -/
def get {K V VB : Type} (c : LmdbValModel K V VB) (db : DbState) (key : K) :
    Except StorageError (Option V) := do
  let k ← c.keyEncode key
  match dbGet db k with
  | some value => do
      let value ← c.valDecode value
      pure (some (c.intoOwned value))
  | none => pure none

/-- `RocksdbMap::contains`: encode the key and test presence of the pinned
bytes; the stored value is never decoded. -/
def contains {K V VB : Type} (c : LmdbValModel K V VB) (db : DbState) (key : K) :
    Except StorageError Bool := do
  let k ← c.keyEncode key
  pure (dbGet db k).isSome

/-- `RocksdbMap::insert`: encode key and value and `put` them; returns the
updated store in place of Rust's interior mutation through `&self`. -/
def insert {K V VB : Type} (c : LmdbValModel K V VB) (db : DbState) (key : K)
    (value : V) : Except StorageError DbState := do
  let k ← c.keyEncode key
  let v ← c.valEncode value
  pure (dbPut db k v)

/-- `RocksdbMap::remove`: encode the key and `delete` it. -/
def remove {K V VB : Type} (c : LmdbValModel K V VB) (db : DbState) (key : K) :
    Except StorageError DbState := do
  let k ← c.keyEncode key
  pure (dbDelete db k)

/-- Outcome of a Rust call that may return, error, or panic. -/
inductive CountResult where
  | ok (n : Nat)
  | err (e : StorageError)
  | panicked
deriving DecidableEq

/-- `RocksdbMap::count`: `property_int_value("rocksdb.estimate-num-keys")`
yields `Result<Option<u64>>`; the `?` operator propagates the `Err` case, the
`.expect(..)` call panics when the property value is absent (`Ok(None)`), and
otherwise the `u64` estimate is cast to `usize` (the identity on the 64-bit
targets dozer builds for).  The argument is the result the store reports. -/
def count (estimateNumKeys : Except StorageError (Option Nat)) : CountResult :=
  match estimateNumKeys with
  | .error e => .err e
  | .ok none => .panicked
  | .ok (some n) => .ok n

end RocksdbMap

/-- The identity codec on raw byte sequences: keys and values are stored as
they are (the instantiation `K = V = Vec<u8>`, whose encode is a copy and
whose decode always succeeds). -/
def bytesCodec : LmdbValModel Bytes Bytes Bytes where
  keyEncode := fun k => .ok k
  valEncode := fun v => .ok v
  valDecode := fun b => .ok b
  intoOwned := fun b => b

/-- A codec whose value type is a single byte stored as a one-byte sequence:
decoding demands exactly one byte and fails otherwise, as fixed-width `LmdbVal`
instances do on malformed input. -/
def byteValCodec : LmdbValModel Bytes Nat Nat where
  keyEncode := fun k => .ok k
  valEncode := fun n => .ok [n]
  valDecode := fun b =>
    match b with
    | [n] => .ok n
    | _ => .error .deserializationError
  intoOwned := fun n => n

/-- A store state holding, under the encoded key `[0]`, a byte value (the
empty sequence) that `byteValCodec.valDecode` rejects. -/
def undecodableDb : DbState := [([0], [])]

/-- Modelled from the spec (§3): the row payload a record mutation carries. -/
structure Record where
  values : List Int
deriving DecidableEq

/-- Modelled from the spec (§3): `dozer_types::types::Operation`, one record
mutation — the unit of data flowing on every edge (`dozer-types` is not among
the sources at hand). -/
inductive Operation where
  | insert (new : Record)
  | delete (old : Record)
  | update (old new : Record)
deriving DecidableEq

/-- `PortHandle` (§3): a small integer identifying one input or output port. -/
abbrev PortHandle := Nat

/-- Modelled from the spec: `crate::dag::dag::DEFAULT_PORT_HANDLE`, the port
handle single-port nodes use (its numeric value, not in the sources at hand,
is irrelevant to every claim). -/
def DEFAULT_PORT_HANDLE : PortHandle := 65535

/-- `NodeHandle` (§3): an optional shard/partition identifier plus a local id;
equality is by the pair. -/
structure NodeHandle where
  ns : Option Nat
  id : String
deriving DecidableEq

/-- `Endpoint` (§3): one side of a connection, a (node, port) pair. -/
structure Endpoint where
  node : NodeHandle
  port : PortHandle
deriving DecidableEq

/-- Modelled from the spec (§7): `crate::dag::errors::ExecutionError` (not
among the sources); the build-time error variants the claims mention. -/
inductive ExecutionError where
  | invalidNodeHandle (h : NodeHandle)
  | invalidPortHandle (p : PortHandle)
  | cycleDetected
  | missingInput (p : PortHandle)
deriving DecidableEq

/-- `NoopProcessor::process`: `fw.send(op, DEFAULT_PORT_HANDLE)` — forwards
the received operation, unchanged, exactly once on the default output port;
the incoming port, the transaction and the record readers are ignored.  The
result is the list of (port, operation) emissions handed to the forwarder. -/
def NoopProcessor.process (op : Operation) : List (PortHandle × Operation) :=
  [(DEFAULT_PORT_HANDLE, op)]

/-- Modelled from the spec (§4.3, §5): a non-failing run of the single-path
graph source → `NoopProcessor` → counting sink.  The executor code is not
among the sources at hand; per the spec each edge delivers every message sent
on it in FIFO order and a non-failing run drains the source completely, so the
count the sink observes is the number of operations the processor emits on its
(sole, connected) default output port over the whole source stream. -/
def runPipeline (sourceOps : List Operation) : Nat :=
  ((sourceOps.flatMap fun op => NoopProcessor.process op).filter
    (fun e => e.1 == DEFAULT_PORT_HANDLE)).length

/-- Modelled from the test's `GeneratorSourceFactory` (its source is not at
hand): a source that emits `count` insert operations. -/
def generatorOps (count : Nat) : List Operation :=
  (List.range count).map fun i => Operation.insert ⟨[Int.ofNat i]⟩

/-- The `HashMap<PortHandle, Schema>` of input schemas handed to
`get_output_schema`, as an association list over an arbitrary schema type. -/
abbrev SchemaMap (S : Type) := List (PortHandle × S)

/-- `HashMap::get` on a schema map. -/
def SchemaMap.lookup {S : Type} (m : SchemaMap S) (p : PortHandle) : Option S :=
  (m.find? (fun e => e.1 == p)).map Prod.snd

/-- Outcome of a Rust call that may return a value, return an error, or panic
(`unwrap` on `None`). -/
inductive CallOutcome (S : Type) where
  | ok (s : S)
  | err (e : ExecutionError)
  | panicked
deriving DecidableEq

/-- `NoopProcessorFactory::get_output_schema`:
`Ok(input_schemas.get(&DEFAULT_PORT_HANDLE).unwrap().clone())` — the output
port is ignored; when the map holds a schema for `DEFAULT_PORT_HANDLE` that
schema is returned in `Ok`, and when it does not the `unwrap()` panics. -/
def NoopProcessorFactory.get_output_schema (S : Type) (_output_port : PortHandle)
    (input_schemas : SchemaMap S) : CallOutcome S :=
  match input_schemas.lookup DEFAULT_PORT_HANDLE with
  | some s => .ok s
  | none => .panicked

/-- `NoopJoinProcessorFactory::get_output_schema`:
`Ok(input_schemas.get(&1).unwrap().clone())` — as above but for the required
input port `1`. -/
def NoopJoinProcessorFactory.get_output_schema (S : Type) (_output_port : PortHandle)
    (input_schemas : SchemaMap S) : CallOutcome S :=
  match input_schemas.lookup 1 with
  | some s => .ok s
  | none => .panicked

/-- Modelled from the spec (§3, §4.2): `NodeType`, the Source / Processor /
Sink variant wrapping a factory.  For graph validation only the ports the
factory declares matter, so each variant carries its declared port lists
(sources have no input ports, sinks no output ports). -/
inductive NodeType where
  | source (output_ports : List PortHandle)
  | processor (input_ports : List PortHandle) (output_ports : List PortHandle)
  | sink (input_ports : List PortHandle)
deriving DecidableEq

/-- The output ports a node's factory declares (`get_output_ports`). -/
def NodeType.output_ports : NodeType → List PortHandle
  | .source out => out
  | .processor _ out => out
  | .sink _ => []

/-- The input ports a node's factory declares (`get_input_ports`). -/
def NodeType.input_ports : NodeType → List PortHandle
  | .source _ => []
  | .processor inp _ => inp
  | .sink inp => inp

/-- Modelled from the spec (§3): `Dag`, a mapping from `NodeHandle` to
`NodeType` plus the set of connections (ordered pairs of endpoints), in
insertion order. -/
structure Dag where
  nodes : List (NodeHandle × NodeType)
  edges : List (Endpoint × Endpoint)
deriving DecidableEq

/-- `Dag::new`: the empty graph. -/
def Dag.new : Dag := ⟨[], []⟩

/-- The node registered under a handle, if any. -/
def Dag.get_node (d : Dag) (h : NodeHandle) : Option NodeType :=
  (d.nodes.find? (fun p => p.1 == h)).map Prod.snd

/-- Modelled from the spec (§4.1): `Dag::add_node` registers a node and fails
if the handle is already used (the failing call leaves the graph untouched:
the error value carries no graph and the caller keeps the old one). -/
def Dag.add_node (d : Dag) (t : NodeType) (h : NodeHandle) :
    Except ExecutionError Dag :=
  match d.get_node h with
  | some _ => .error (.invalidNodeHandle h)
  | none => .ok { d with nodes := d.nodes ++ [(h, t)] }

/-- The directed node-to-node graph a connection list induces. -/
def nodeGraph (edges : List (Endpoint × Endpoint)) :
    List (NodeHandle × NodeHandle) :=
  edges.map fun e => (e.1.node, e.2.node)

/-- Fuel-bounded reachability in a directed graph given as an edge list:
`reachableB E n a b` is true exactly when some path from `a` to `b` of at
most `n` edges exists (the zero-length path makes every node reach itself). -/
def reachableB (E : List (NodeHandle × NodeHandle)) :
    Nat → NodeHandle → NodeHandle → Bool
  | 0, a, b => a == b
  | n + 1, a, b => a == b || E.any fun e => e.1 == a && reachableB E n e.2 b

/-- Modelled from the spec (§4.1): `Dag::connect` validates that both
endpoints reference registered nodes, that the source endpoint's port is one
of the source node's declared output ports and the destination endpoint's
port one of the destination node's declared input ports (port-mismatch error
otherwise), and that the added edge closes no cycle — the destination node
must not already reach the source node; on success the edge is appended.
Validation is eager: the error is returned by this call itself, before any
executor exists. -/
def Dag.connect (d : Dag) (src dst : Endpoint) : Except ExecutionError Dag :=
  match d.get_node src.node, d.get_node dst.node with
  | none, _ => .error (.invalidNodeHandle src.node)
  | some _, none => .error (.invalidNodeHandle dst.node)
  | some st, some dt =>
    if src.port ∈ st.output_ports then
      if dst.port ∈ dt.input_ports then
        if reachableB (nodeGraph d.edges) d.edges.length dst.node src.node then
          .error .cycleDetected
        else .ok { d with edges := d.edges ++ [(src, dst)] }
      else .error (.invalidPortHandle dst.port)
    else .error (.invalidPortHandle src.port)

/-- One graph-building call. -/
inductive DagOp where
  | addNode (t : NodeType) (h : NodeHandle)
  | connect (src dst : Endpoint)

/-- Runs one building call; a failing call leaves the graph unchanged, as a
Rust caller that observes the `Err` and keeps its `Dag` does. -/
def Dag.applyOp (d : Dag) : DagOp → Dag
  | .addNode t h =>
    match d.add_node t h with
    | .ok d' => d'
    | .error _ => d
  | .connect src dst =>
    match d.connect src dst with
    | .ok d' => d'
    | .error _ => d

/-- Every graph reachable through a sequence of `add_node` and `connect`
calls starting from `Dag::new` (failing calls change nothing). -/
def Dag.build (ops : List DagOp) : Dag :=
  ops.foldl Dag.applyOp Dag.new

/-- The edge relation of a directed graph given as an edge list. -/
def EdgeRel (E : List (NodeHandle × NodeHandle)) (a b : NodeHandle) : Prop :=
  (a, b) ∈ E

/-- Acyclicity of a directed graph: no node lies on a nonempty path back to
itself. -/
def AcyclicGraph (E : List (NodeHandle × NodeHandle)) : Prop :=
  ∀ a, ¬ Relation.TransGen (EdgeRel E) a a

/-- A `Dag`'s induced node-to-node connection graph is acyclic. -/
def Dag.AcyclicConnections (d : Dag) : Prop :=
  AcyclicGraph (nodeGraph d.edges)

/-- A walk in a directed graph: `IsWalk E a w b` holds when `w` is a list of
consecutive edges of `E` leading from `a` to `b`. -/
def IsWalk (E : List (NodeHandle × NodeHandle)) :
    NodeHandle → List (NodeHandle × NodeHandle) → NodeHandle → Prop
  | a, [], b => a = b
  | a, e :: w, b => e ∈ E ∧ e.1 = a ∧ IsWalk E e.2 w b

/-- A message on an edge channel after a stop request (§4.4): an ordinary
operation stamped with its source offset, or the termination marker the
stopped source emits after its last record. -/
inductive Message where
  | op (o : Operation) (offset : Nat)
  | terminator
deriving DecidableEq

/-- The records of a source numbered with consecutive offsets starting just
above `base`. -/
def numberedOps (base : Nat) : List Operation → List Message
  | [] => []
  | o :: rest => .op o (base + 1) :: numberedOps (base + 1) rest

/-- Modelled from the spec (§4.4 `stop()`): the stream a stopped generator
source leaves on its output port — every record stamped with its offset
(1-based), followed by the termination marker. -/
def sourceOutput (records : List Operation) : List Message :=
  numberedOps 0 records ++ [.terminator]

/-- The source's last durable read position: the offset of its last emitted
record, `0` when it emitted none. -/
def sourceLastOffset (records : List Operation) : Nat :=
  records.length

/-- Modelled from the spec (§4.4, §5): a stateless identity node's worker
draining its input channel after a stop.  Operations update the
highest-received upstream offset and are forwarded unchanged; on the
termination marker the node commits — persisting that highest offset into its
metadata record — forwards the marker and exits.  `last` is the offset
reflected in the node's previous commit (`0` before any).  Returns the
forwarded stream and the committed offset at exit. -/
def drainNode : List Message → Nat → List Message × Nat
  | [], last => ([], last)
  | .op o k :: rest, _ =>
    let r := drainNode rest k
    (.op o k :: r.1, r.2)
  | .terminator :: _, last => ([.terminator], last)

/-- Modelled from the spec (§4.6): the per-source consistency classification
the metadata manager computes after all workers exited — `FullyConsistent`
when every reachable node's committed offset has caught up to the source's
last emitted offset, `PartiallyConsistent` with the lagging offsets
otherwise. -/
inductive Consistency where
  | FullyConsistent (offset : Nat)
  | PartiallyConsistent (offset : Nat) (lagging : List Nat)
deriving DecidableEq

/-- Modelled from the spec (§4.6): classify one source from its last emitted
offset and the committed offsets persisted by its reachable downstream
nodes. -/
def classify (sourceOffset : Nat) (nodeOffsets : List Nat) : Consistency :=
  if nodeOffsets.all (fun o => decide (sourceOffset ≤ o)) then
    .FullyConsistent sourceOffset
  else
    .PartiallyConsistent sourceOffset
      (nodeOffsets.filter fun o => decide (o < sourceOffset))

/-- Modelled from the spec (§4.4, §4.6): the classification of the source of
the stateless single-path pipeline source → `NoopProcessor` → sink after a
cooperative stop, a full drain and a clean `join()` — the processor drains
the source's stream, the sink drains the processor's forwarded stream, and
the metadata manager classifies the source over the two committed offsets
read back from disk. -/
def pipelineConsistency (records : List Operation) : Consistency :=
  let proc := drainNode (sourceOutput records) 0
  let sink := drainNode proc.1 0
  classify (sourceLastOffset records) [proc.2, sink.2]

/-! ## Lemmas about the byte store and the `Except` monad -/

theorem exceptBind_ok {ε α β : Type} (a : α) (f : α → Except ε β) :
    (Except.ok a >>= f : Except ε β) = f a := rfl

theorem exceptMap_ok {ε α β : Type} (f : α → β) (a : α) :
    (f <$> (Except.ok a : Except ε α) : Except ε β) = Except.ok (f a) := rfl

theorem exceptPure_eq_ok {ε α : Type} (a : α) :
    (pure a : Except ε α) = Except.ok a := rfl

theorem dbGet_dbPut_self (db : DbState) (k v : Bytes) :
    dbGet (dbPut db k v) k = some v := by
  simp [dbGet, dbPut]

theorem dbGet_dbDelete_self (db : DbState) (k : Bytes) :
    dbGet (dbDelete db k) k = none := by
  induction db with
  | nil => rfl
  | cons p rest ih =>
    by_cases h : p.1 = k <;> simp [dbGet, dbDelete, h, ih]

/-! ## Claims about `RocksdbMap` (C2, C3, C4, C10) -/

/-- **C2**: for every key `k` and value `v` — empty byte sequences included —
`insert(k, v)` followed by `get(k)` with no intervening mutation of `k`
returns `Ok(Some(v))`: the stored value is recovered after encode, storage,
decode and conversion to an owned value.  The hypotheses are exactly the
encode/decode contract of the external `BorrowEncode`/`LmdbVal` collaborators:
both encodes succeed and decoding the encoded value recovers it. -/
theorem insert_then_get {K V VB : Type} (c : LmdbValModel K V VB) (db : DbState)
    (key : K) (value : V) (ek ev : Bytes) (vb : VB)
    (hk : c.keyEncode key = .ok ek)
    (hv : c.valEncode value = .ok ev)
    (hd : c.valDecode ev = .ok vb)
    (ho : c.intoOwned vb = value) :
    ∃ db', RocksdbMap.insert c db key value = .ok db' ∧
      RocksdbMap.get c db' key = .ok (some value) := by
  refine ⟨dbPut db ek ev, ?_, ?_⟩
  · simp [RocksdbMap.insert, hk, hv, exceptBind_ok, exceptPure_eq_ok]
  · simp [RocksdbMap.get, hk, dbGet_dbPut_self, hd, ho, exceptBind_ok,
      exceptMap_ok, exceptPure_eq_ok]

/-- Witness for C2 at the identity byte codec, the empty store, the empty key
and the empty value. -/
theorem insert_then_get_witness :
    ∃ db', RocksdbMap.insert bytesCodec [] ([] : Bytes) ([] : Bytes) = .ok db' ∧
      RocksdbMap.get bytesCodec db' ([] : Bytes) = .ok (some ([] : Bytes)) :=
  insert_then_get bytesCodec [] [] [] [] [] [] rfl rfl rfl rfl

/-- **C3**: for every key `k`, `remove(k)` followed by `get(k)` with no
intervening mutation of `k` returns `Ok(None)`.  The hypothesis is the
external key-encode contract: encoding `k` succeeds (and, being a pure
function, yields the same bytes in both calls). -/
theorem remove_then_get {K V VB : Type} (c : LmdbValModel K V VB) (db : DbState)
    (key : K) (ek : Bytes) (hk : c.keyEncode key = .ok ek) :
    ∃ db', RocksdbMap.remove c db key = .ok db' ∧
      RocksdbMap.get c db' key = .ok none := by
  refine ⟨dbDelete db ek, ?_, ?_⟩
  · simp [RocksdbMap.remove, hk, exceptBind_ok, exceptPure_eq_ok]
  · simp [RocksdbMap.get, hk, dbGet_dbDelete_self, exceptBind_ok,
      exceptPure_eq_ok]

/-- Witness for C3 at the identity byte codec, a store holding the empty key,
and the empty key. -/
theorem remove_then_get_witness :
    ∃ db', RocksdbMap.remove bytesCodec [([], [1])] ([] : Bytes) = .ok db' ∧
      RocksdbMap.get bytesCodec db' ([] : Bytes) = .ok none :=
  remove_then_get bytesCodec [([], [1])] [] [] rfl

/-- **C4, counterexample**: the agreement between `contains` and `get` fails
on a store state whose byte value under the probed key does not decode:
`contains` — which never decodes — answers `Ok(true)` while `get` returns a
decode error, not `Ok(Some(_))`.  Concrete input: the single-byte-value codec
and the store holding the empty byte sequence under key `[0]`. -/
theorem contains_get_cex :
    RocksdbMap.contains byteValCodec undecodableDb [0] = .ok true ∧
    ¬ ∃ v : Nat, RocksdbMap.get byteValCodec undecodableDb [0] = .ok (some v) := by
  refine ⟨rfl, ?_⟩
  rintro ⟨v, h⟩
  exact Except.noConfusion h

/-- **C4, amended**: provided the key encodes and every byte value the store
holds under it decodes successfully, `contains(k)` returns `Ok(true)` exactly
when `get(k)` returns `Ok(Some(_))` and `Ok(false)` exactly when `get(k)`
returns `Ok(None)`.  (Without the decode proviso `contains` can answer
`Ok(true)` while `get` fails, as `contains_get_cex` shows.) -/
theorem contains_get_agreement {K V VB : Type} (c : LmdbValModel K V VB)
    (db : DbState) (key : K) (ek : Bytes)
    (hk : c.keyEncode key = .ok ek)
    (hdec : ∀ bs, dbGet db ek = some bs → ∃ vb, c.valDecode bs = .ok vb) :
    (RocksdbMap.contains c db key = .ok true ↔
      ∃ v, RocksdbMap.get c db key = .ok (some v)) ∧
    (RocksdbMap.contains c db key = .ok false ↔
      RocksdbMap.get c db key = .ok none) := by
  cases hg : dbGet db ek with
  | none =>
    simp [RocksdbMap.contains, RocksdbMap.get, hk, hg, exceptBind_ok,
      exceptMap_ok, exceptPure_eq_ok]
  | some bs =>
    obtain ⟨vb, hvb⟩ := hdec bs hg
    simp [RocksdbMap.contains, RocksdbMap.get, hk, hg, hvb, exceptBind_ok,
      exceptMap_ok, exceptPure_eq_ok]

/-- Witness for the amended C4 at the identity byte codec and a one-entry
store, probing the stored key. -/
theorem contains_get_agreement_witness :
    (RocksdbMap.contains bytesCodec [([1], [2])] [1] = .ok true ↔
      ∃ v, RocksdbMap.get bytesCodec [([1], [2])] [1] = .ok (some v)) ∧
    (RocksdbMap.contains bytesCodec [([1], [2])] [1] = .ok false ↔
      RocksdbMap.get bytesCodec [([1], [2])] [1] = .ok none) :=
  contains_get_agreement bytesCodec [([1], [2])] [1] [1] rfl
    (fun bs _ => ⟨bs, rfl⟩)

/-- **C10**: `RocksdbMap::count` is not total over its error cases: when the
store reports `Ok(Some(n))` for the `rocksdb.estimate-num-keys` property it
returns `Ok(n)`, when the store reports an error that error is propagated,
but when the property value is absent (`Ok(None)`) the call panics — result
`.panicked`, a constructor distinct from every `.err e` — instead of
surfacing the condition as a `StorageError`. -/
theorem count_not_total :
    RocksdbMap.count (.ok none) = .panicked ∧
    (∀ n, RocksdbMap.count (.ok (some n)) = .ok n) ∧
    (∀ e, RocksdbMap.count (.error e) = .err e) :=
  ⟨rfl, fun _ => rfl, fun _ => rfl⟩

/-! ## Claim about the single-path run (C1) -/

/-- **C1**: a single source emitting `N` operations through the identity
processor `NoopProcessor` into a counting sink yields, for every `N ≥ 0`,
exactly `N` operations observed at the sink under a non-failing run: for any
source stream, the count the sink observes equals the stream's length. -/
theorem run_dag_sink_count (sourceOps : List Operation) :
    runPipeline sourceOps = sourceOps.length := by
  induction sourceOps with
  | nil => rfl
  | cons op rest ih =>
    simpa [runPipeline, NoopProcessor.process, List.flatMap_cons,
      List.filter_append] using ih

/-! ## Claim about the factories' `get_output_schema` (C5) -/

/-- **C5, counterexample**: with the required input schema absent (the empty
input-schema map), neither `NoopProcessorFactory::get_output_schema` nor
`NoopJoinProcessorFactory::get_output_schema` returns an error value — both
panic (`unwrap()` on `None`), a result distinct from every `err e`. -/
theorem get_output_schema_cex :
    NoopProcessorFactory.get_output_schema Unit DEFAULT_PORT_HANDLE [] =
      CallOutcome.panicked ∧
    (¬ ∃ e, NoopProcessorFactory.get_output_schema Unit DEFAULT_PORT_HANDLE [] =
      CallOutcome.err e) ∧
    NoopJoinProcessorFactory.get_output_schema Unit DEFAULT_PORT_HANDLE [] =
      CallOutcome.panicked ∧
    (¬ ∃ e, NoopJoinProcessorFactory.get_output_schema Unit DEFAULT_PORT_HANDLE [] =
      CallOutcome.err e) := by
  refine ⟨rfl, ?_, rfl, ?_⟩ <;> rintro ⟨e, h⟩ <;> exact CallOutcome.noConfusion h

/-- **C5, amended**: both `get_output_schema` implementations are pure
functions of the port and the input-schema map; when the map lacks the schema
for their required input port (`DEFAULT_PORT_HANDLE`, resp. `1`) they panic
via `unwrap()` — they do not return an error value — and when it is present
they return it, for every output port. -/
theorem get_output_schema_amended (S : Type) (port : PortHandle)
    (m : SchemaMap S) :
    (SchemaMap.lookup m DEFAULT_PORT_HANDLE = none →
      NoopProcessorFactory.get_output_schema S port m = .panicked) ∧
    (∀ s, SchemaMap.lookup m DEFAULT_PORT_HANDLE = some s →
      NoopProcessorFactory.get_output_schema S port m = .ok s) ∧
    (SchemaMap.lookup m 1 = none →
      NoopJoinProcessorFactory.get_output_schema S port m = .panicked) ∧
    (∀ s, SchemaMap.lookup m 1 = some s →
      NoopJoinProcessorFactory.get_output_schema S port m = .ok s) := by
  refine ⟨fun h => ?_, fun s h => ?_, fun h => ?_, fun s h => ?_⟩ <;>
    simp [NoopProcessorFactory.get_output_schema,
      NoopJoinProcessorFactory.get_output_schema, h]

/-- Witness for the amended C5 at the unit schema type, output port `0` and
the empty input-schema map. -/
theorem get_output_schema_amended_witness :
    NoopProcessorFactory.get_output_schema Unit 0 [] = CallOutcome.panicked ∧
    NoopJoinProcessorFactory.get_output_schema Unit 0 [] = CallOutcome.panicked :=
  ⟨(get_output_schema_amended Unit 0 []).1 rfl,
    (get_output_schema_amended Unit 0 []).2.2.1 rfl⟩

/-! ## Claims about graph construction (C6, C8) -/

/-- **C6**: `Dag::connect` fails with a port-mismatch error, deterministically
at connect-time (the error is the call's own return value, before any
executor or `start()` exists), whenever the source endpoint's port is not
among the source node's declared output ports or the destination endpoint's
port is not among the destination node's declared input ports. -/
theorem connect_port_mismatch (d : Dag) (src dst : Endpoint) (st dt : NodeType)
    (hs : d.get_node src.node = some st)
    (hd : d.get_node dst.node = some dt)
    (hbad : src.port ∉ st.output_ports ∨ dst.port ∉ dt.input_ports) :
    ∃ p, d.connect src dst = .error (.invalidPortHandle p) := by
  by_cases h1 : src.port ∈ st.output_ports
  · have h2 : dst.port ∉ dt.input_ports := hbad.resolve_left (not_not_intro h1)
    exact ⟨dst.port, by simp [Dag.connect, hs, hd, h1, h2]⟩
  · exact ⟨src.port, by simp [Dag.connect, hs, hd, h1]⟩

/-- Witness for C6: a two-node graph whose source declares output port `5`
only; connecting from the undeclared port `9` yields a port-mismatch error. -/
theorem connect_port_mismatch_witness :
    ∃ p, (Dag.mk [(⟨none, "s"⟩, NodeType.source [5]),
        (⟨none, "t"⟩, NodeType.sink [7])] []).connect
      ⟨⟨none, "s"⟩, 9⟩ ⟨⟨none, "t"⟩, 7⟩ = .error (.invalidPortHandle p) :=
  connect_port_mismatch _ _ _ (NodeType.source [5]) (NodeType.sink [7])
    rfl rfl (Or.inl (by decide))

/-- **C8**: `Dag::add_node` with a handle already registered fails with an
error (and, the error value carrying no graph, the caller's node mapping is
left unchanged), while `add_node` with a fresh handle succeeds and registers
the node under it. -/
theorem add_node_spec (d : Dag) (t : NodeType) (h : NodeHandle) :
    (∀ t0, d.get_node h = some t0 →
      d.add_node t h = .error (.invalidNodeHandle h)) ∧
    (d.get_node h = none →
      d.add_node t h = .ok { d with nodes := d.nodes ++ [(h, t)] }) := by
  constructor
  · intro t0 hsome
    simp [Dag.add_node, hsome]
  · intro hnone
    simp [Dag.add_node, hnone]

/-- Witness for C8: adding a node to the empty graph succeeds; adding another
node under the same handle then fails. -/
theorem add_node_spec_witness :
    Dag.new.add_node (NodeType.source [0]) ⟨none, "a"⟩ =
      .ok (Dag.mk [(⟨none, "a"⟩, NodeType.source [0])] []) ∧
    (Dag.mk [(⟨none, "a"⟩, NodeType.source [0])] []).add_node
        (NodeType.sink [1]) ⟨none, "a"⟩ =
      .error (.invalidNodeHandle ⟨none, "a"⟩) :=
  ⟨(add_node_spec Dag.new (NodeType.source [0]) ⟨none, "a"⟩).2 rfl,
    (add_node_spec _ (NodeType.sink [1]) ⟨none, "a"⟩).1 (NodeType.source [0]) rfl⟩

/-! ## Claim about the drained pipeline's consistency (C9) -/

theorem drainNode_numbered (rs : List Operation) :
    ∀ base, drainNode (numberedOps base rs ++ [Message.terminator]) base =
      (numberedOps base rs ++ [Message.terminator], base + rs.length) := by
  induction rs with
  | nil => intro base; simp [numberedOps, drainNode]
  | cons o rest ih =>
    intro base
    simp only [numberedOps, List.cons_append, drainNode, List.append_eq,
      ih (base + 1), List.length_cons, Prod.mk.injEq]
    exact ⟨trivial, by omega⟩

/-- **C9**: for the stateless single-path pipeline source → identity
processor → sink, after a cooperative stop, full drain and clean join, the
consistency classification assigns the source `FullyConsistent`: the drain
commits every node at the source's last durable offset, so no node's
committed offset trails it. -/
theorem pipeline_fully_consistent (records : List Operation) :
    pipelineConsistency records = .FullyConsistent records.length := by
  have h1 := drainNode_numbered records 0
  simp [pipelineConsistency, sourceOutput, sourceLastOffset, h1, classify]

/-! ## Reachability, walks and acyclicity of built graphs (C7) -/

theorem reachableB_of_eq {E : List (NodeHandle × NodeHandle)} {n : Nat}
    {a b : NodeHandle} (h : a = b) : reachableB E n a b = true := by
  cases n <;> simp [reachableB, h]

theorem reflTransGen_of_reachableB {E : List (NodeHandle × NodeHandle)} :
    ∀ (n : Nat) {a b : NodeHandle}, reachableB E n a b = true →
      Relation.ReflTransGen (EdgeRel E) a b := by
  intro n
  induction n with
  | zero =>
    intro a b h
    simp only [reachableB, beq_iff_eq] at h
    exact h ▸ Relation.ReflTransGen.refl
  | succ n ih =>
    intro a b h
    simp only [reachableB, Bool.or_eq_true, beq_iff_eq, List.any_eq_true,
      Bool.and_eq_true] at h
    rcases h with h | ⟨e, heE, hea, hr⟩
    · exact h ▸ Relation.ReflTransGen.refl
    · have hmem : EdgeRel E a e.2 := by
        show (a, e.2) ∈ E
        rw [← hea, Prod.mk.eta]
        exact heE
      exact Relation.ReflTransGen.head hmem (ih hr)

theorem isWalk_of_reflTransGen {E : List (NodeHandle × NodeHandle)}
    {a b : NodeHandle} (h : Relation.ReflTransGen (EdgeRel E) a b) :
    ∃ w, IsWalk E a w b := by
  induction h using Relation.ReflTransGen.head_induction_on with
  | refl => exact ⟨[], rfl⟩
  | head hstep _ ih =>
    obtain ⟨w, hw⟩ := ih
    exact ⟨(_, _) :: w, hstep, rfl, hw⟩

theorem reachableB_of_isWalk {E : List (NodeHandle × NodeHandle)} :
    ∀ {w : List (NodeHandle × NodeHandle)} {a b : NodeHandle},
      IsWalk E a w b → ∀ {n : Nat}, w.length ≤ n → reachableB E n a b = true := by
  intro w
  induction w with
  | nil =>
    intro a b hw n _
    exact reachableB_of_eq hw
  | cons e rest ih =>
    intro a b hw n hn
    obtain ⟨heE, hea, hrest⟩ := hw
    match n, hn with
    | n + 1, hn =>
      simp only [reachableB, Bool.or_eq_true, beq_iff_eq, List.any_eq_true,
        Bool.and_eq_true]
      exact Or.inr ⟨e, heE, hea, ih hrest (Nat.le_of_succ_le_succ hn)⟩

theorem isWalk_edges_mem {E : List (NodeHandle × NodeHandle)} :
    ∀ {w : List (NodeHandle × NodeHandle)} {a b : NodeHandle},
      IsWalk E a w b → ∀ e ∈ w, e ∈ E := by
  intro w
  induction w with
  | nil =>
    intro a b _ e he
    cases he
  | cons f rest ih =>
    intro a b hw e he
    obtain ⟨hfE, _, hrest⟩ := hw
    rcases List.mem_cons.mp he with rfl | he
    · exact hfE
    · exact ih hrest e he

theorem isWalk_append {E : List (NodeHandle × NodeHandle)} :
    ∀ {u v : List (NodeHandle × NodeHandle)} {a b : NodeHandle},
      IsWalk E a (u ++ v) b ↔ ∃ c, IsWalk E a u c ∧ IsWalk E c v b := by
  intro u
  induction u with
  | nil =>
    intro v a b
    constructor
    · intro h
      exact ⟨a, rfl, h⟩
    · rintro ⟨c, hac, h⟩
      have hac' : a = c := hac
      exact hac' ▸ h
  | cons e rest ih =>
    intro v a b
    constructor
    · rintro ⟨heE, hea, h⟩
      obtain ⟨c, h1, h2⟩ := ih.mp h
      exact ⟨c, ⟨heE, hea, h1⟩, h2⟩
    · rintro ⟨c, ⟨heE, hea, h1⟩, h2⟩
      exact ⟨heE, hea, ih.mpr ⟨c, h1, h2⟩⟩

theorem sublist_pair_split {α : Type} (x : α) :
    ∀ {w : List α}, List.Sublist [x, x] w →
      ∃ w₁ w₂ w₃, w = w₁ ++ x :: w₂ ++ x :: w₃ := by
  intro w
  induction w with
  | nil =>
    intro h
    cases h
  | cons a rest ih =>
    intro h
    cases h with
    | cons _ h' =>
      obtain ⟨w₁, w₂, w₃, rfl⟩ := ih h'
      exact ⟨a :: w₁, w₂, w₃, rfl⟩
    | cons₂ _ h' =>
      have hx : x ∈ rest := List.singleton_sublist.mp h'
      obtain ⟨u, v, rfl⟩ := List.append_of_mem hx
      exact ⟨[], u, v, rfl⟩

theorem isWalk_cut {E : List (NodeHandle × NodeHandle)} {a b : NodeHandle}
    {e : NodeHandle × NodeHandle} {w₁ w₂ w₃ : List (NodeHandle × NodeHandle)}
    (h : IsWalk E a (w₁ ++ e :: w₂ ++ e :: w₃) b) :
    IsWalk E a (w₁ ++ e :: w₃) b := by
  obtain ⟨c, h1, h2⟩ := isWalk_append.mp h
  obtain ⟨c₁, h1a, h1b⟩ := isWalk_append.mp h1
  obtain ⟨heE, hec, _⟩ := h1b
  obtain ⟨_, _, h6⟩ := h2
  exact isWalk_append.mpr ⟨c₁, h1a, heE, hec, h6⟩

theorem isWalk_shorten {E : List (NodeHandle × NodeHandle)} :
    ∀ (n : Nat) {w : List (NodeHandle × NodeHandle)} {a b : NodeHandle},
      w.length ≤ n → IsWalk E a w b →
      ∃ w', IsWalk E a w' b ∧ w'.length ≤ E.length := by
  intro n
  induction n with
  | zero =>
    intro w a b hlen hw
    have hnil : w = [] := List.length_eq_zero.mp (Nat.le_zero.mp hlen)
    subst hnil
    exact ⟨[], hw, Nat.zero_le _⟩
  | succ n ih =>
    intro w a b hlen hw
    by_cases hle : w.length ≤ E.length
    · exact ⟨w, hw, hle⟩
    · have hsub : ∀ e ∈ w, e ∈ E := isWalk_edges_mem hw
      have hnd : ¬ w.Nodup := fun hnd => hle (hnd.subperm hsub).length_le
      obtain ⟨x, hx⟩ := List.exists_duplicate_iff_not_nodup.mpr hnd
      obtain ⟨w₁, w₂, w₃, rfl⟩ :=
        sublist_pair_split x (List.duplicate_iff_sublist.mp hx)
      refine ih ?_ (isWalk_cut hw)
      have horig := hlen
      simp only [List.length_append, List.length_cons] at horig ⊢
      omega

theorem reachableB_complete {E : List (NodeHandle × NodeHandle)}
    {a b : NodeHandle} (h : Relation.ReflTransGen (EdgeRel E) a b) :
    reachableB E E.length a b = true := by
  obtain ⟨w, hw⟩ := isWalk_of_reflTransGen h
  obtain ⟨w', hw', hlen⟩ := isWalk_shorten w.length (Nat.le_refl _) hw
  exact reachableB_of_isWalk hw' hlen

theorem reflTransGen_append_edge {E : List (NodeHandle × NodeHandle)}
    {s t : NodeHandle} (hno : ¬ Relation.ReflTransGen (EdgeRel E) t s) :
    ∀ {x y : NodeHandle},
      Relation.ReflTransGen (EdgeRel (E ++ [(s, t)])) x y →
      Relation.ReflTransGen (EdgeRel E) x y ∨
        (Relation.ReflTransGen (EdgeRel E) x s ∧
          Relation.ReflTransGen (EdgeRel E) t y) := by
  intro x y h
  induction h using Relation.ReflTransGen.head_induction_on with
  | refl => exact Or.inl .refl
  | @head a c hstep _ ih =>
    rcases List.mem_append.mp hstep with hE | hnew
    · rcases ih with ih | ⟨ih1, ih2⟩
      · exact Or.inl (Relation.ReflTransGen.head hE ih)
      · exact Or.inr ⟨Relation.ReflTransGen.head hE ih1, ih2⟩
    · have hac : (a, c) = (s, t) := List.mem_singleton.mp hnew
      have ha : a = s := congrArg Prod.fst hac
      have hc : c = t := congrArg Prod.snd hac
      subst ha
      subst hc
      rcases ih with ih | ⟨ih1, _⟩
      · exact Or.inr ⟨.refl, ih⟩
      · exact absurd ih1 hno

theorem connect_ok_edges {d d' : Dag} {src dst : Endpoint}
    (hok : d.connect src dst = .ok d') :
    d'.edges = d.edges ++ [(src, dst)] ∧
      reachableB (nodeGraph d.edges) d.edges.length dst.node src.node = false := by
  unfold Dag.connect at hok
  cases hs : d.get_node src.node with
  | none => simp [hs] at hok
  | some st =>
    cases hd : d.get_node dst.node with
    | none => simp [hs, hd] at hok
    | some dt =>
      simp only [hs, hd] at hok
      by_cases h1 : src.port ∈ st.output_ports
      · by_cases h2 : dst.port ∈ dt.input_ports
        · cases hre : reachableB (nodeGraph d.edges) d.edges.length
              dst.node src.node with
          | true => simp [h1, h2, hre] at hok
          | false =>
            simp [h1, h2, hre] at hok
            refine ⟨?_, rfl⟩
            rw [← hok]
        · simp [h1, h2] at hok
      · simp [h1] at hok

theorem connect_preserves_acyclic {d d' : Dag} {src dst : Endpoint}
    (hok : d.connect src dst = .ok d') (hacc : d.AcyclicConnections) :
    d'.AcyclicConnections := by
  obtain ⟨hedges, hcheck⟩ := connect_ok_edges hok
  have hgraph : nodeGraph d'.edges =
      nodeGraph d.edges ++ [(src.node, dst.node)] := by
    rw [hedges]
    simp [nodeGraph]
  have hno : ¬ Relation.ReflTransGen (EdgeRel (nodeGraph d.edges))
      dst.node src.node := by
    intro hr
    have htrue := reachableB_complete hr
    have hlen : (nodeGraph d.edges).length = d.edges.length := by
      simp [nodeGraph]
    rw [hlen, hcheck] at htrue
    exact Bool.false_ne_true htrue
  intro a hcyc
  rw [hgraph] at hcyc
  obtain ⟨b, hab, hba⟩ := Relation.TransGen.tail'_iff.mp hcyc
  rcases List.mem_append.mp hba with hE | hnew
  · rcases reflTransGen_append_edge hno hab with h | ⟨h1, h2⟩
    · exact hacc a (Relation.TransGen.tail' h hE)
    · exact hno ((h2.tail hE).trans h1)
  · have hba' : (b, a) = (src.node, dst.node) := List.mem_singleton.mp hnew
    have hb : b = src.node := congrArg Prod.fst hba'
    have ha : a = dst.node := congrArg Prod.snd hba'
    subst hb
    subst ha
    rcases reflTransGen_append_edge hno hab with h | ⟨h1, _⟩
    · exact hno h
    · exact hno h1

theorem applyOp_preserves_acyclic (d : Dag) (op : DagOp)
    (hacc : d.AcyclicConnections) : (d.applyOp op).AcyclicConnections := by
  cases op with
  | addNode t h =>
    cases hr : d.add_node t h with
    | ok d' =>
      have hed : d'.edges = d.edges := by
        unfold Dag.add_node at hr
        cases hn : d.get_node h with
        | some t0 => simp [hn] at hr
        | none =>
          simp only [hn] at hr
          have heq : { d with nodes := d.nodes ++ [(h, t)] } = d' :=
            Except.ok.inj hr
          rw [← heq]
      simp only [Dag.applyOp, hr]
      show AcyclicGraph (nodeGraph d'.edges)
      rw [hed]
      exact hacc
    | error e =>
      simpa only [Dag.applyOp, hr] using hacc
  | connect src dst =>
    cases hr : d.connect src dst with
    | ok d' =>
      simp only [Dag.applyOp, hr]
      exact connect_preserves_acyclic hr hacc
    | error e =>
      simpa only [Dag.applyOp, hr] using hacc

/-- **C7**: every `Dag` reachable through any sequence of `add_node` and
`connect` calls — failing calls leaving the graph unchanged, so the reachable
graphs are exactly those built from successful calls — has an acyclic
connection graph: `connect` rejects, at declaration time with the
`cycleDetected` error, any edge whose destination node already reaches its
source node, so a cycle never exists in a built graph and hence can never be
first detected at run time. -/
theorem dag_build_acyclic (ops : List DagOp) :
    (Dag.build ops).AcyclicConnections := by
  have hstep : ∀ d : Dag, d.AcyclicConnections →
      (ops.foldl Dag.applyOp d).AcyclicConnections := by
    induction ops with
    | nil => exact fun d h => h
    | cons op rest ih =>
      intro d h
      exact ih _ (applyOp_preserves_acyclic d op h)
  apply hstep
  intro a hcyc
  cases hcyc with
  | single h => cases h
  | tail _ h => cases h

end Dozer
